import Mathlib

/-!
Verification development for the block-allocator core of the
aphrodite-engine repository (`aphrodite/processing/block/interfaces.py`).

The repository ships the abstract interface (`Block`, `BlockAllocator`,
`DeviceAwareBlockAllocator`, `NoFreeBlocksError`) only; the concrete
allocator behaviour is given by the specification.  The definitions below
therefore embed the interface's data model and, where marked, model the
concrete behaviour from the specification's description of the
allocation/sharing protocol (free list, refcounts, prefix-cache lookup,
copy-on-write bookkeeping).
-/

namespace Aphrodite

/-- Error taxonomy.  `noFreeBlocks` embeds `BlockAllocator.NoFreeBlocksError`
(interfaces.py line 91, a distinguished `ValueError` subclass);
`capacityExceeded` and `invariantViolation` are the other failure kinds of
the specification's error-handling design (pool exhaustion vs. caller
contract violation vs. internal invariant violation). -/
inductive AllocError where
  | noFreeBlocks
  | capacityExceeded
  | invariantViolation
deriving DecidableEq, Repr

/-- The observable data of a `Block` handle (interfaces.py lines 7-31):
its fixed capacity and the token ids currently stored. -/
structure BlockData where
  blockSize : Nat
  tokenIds : List Nat
deriving DecidableEq, Repr

/-- `Block.num_empty_slots`: `block_size - len(token_ids)` (derived). -/
def BlockData.numEmptySlots (b : BlockData) : Nat :=
  b.blockSize - b.tokenIds.length

/-- `Block.is_full`: `num_empty_slots == 0`. -/
def BlockData.isFull (b : BlockData) : Bool :=
  b.numEmptySlots = 0

/-- Modelled from the spec: `Block.append_token_ids` (abstract in
interfaces.py lines 9-11) — extends `token_ids` by `ids`; fails with
`CapacityExceeded` if `len(token_ids) + len(ids) > block_size`. -/
def BlockData.appendTokenIds (b : BlockData) (ids : List Nat) :
    Except AllocError BlockData :=
  if b.tokenIds.length + ids.length > b.blockSize then
    .error .capacityExceeded
  else
    .ok { b with tokenIds := b.tokenIds ++ ids }

/-- Total wrapper around `appendTokenIds` that keeps the block unchanged on
failure; used to express that a failed append performs no partial
mutation. -/
def BlockData.appendStep (b : BlockData) (ids : List Nat) : BlockData :=
  match b.appendTokenIds ids with
  | .ok b' => b'
  | .error _ => b

/-- A chain of blocks represented by its slot ids: `Chain.snoc p id` is the
block with slot id `id` whose `prev_block` link points at the chain `p`
(`Chain.nil` standing for a `prev_block` of `None`).  Walking the
`prev_block` links from the last block reaches the chain's root. -/
inductive Chain where
  | nil : Chain
  | snoc : Chain → Nat → Chain
deriving DecidableEq, Repr

/-- The slot ids of a chain, ordered from the chain's root outward. -/
def Chain.ids : Chain → List Nat
  | .nil => []
  | .snoc p id => Chain.ids p ++ [id]

/-- Pointwise update of a slot-indexed table. -/
def upd {α : Type} (f : Nat → α) (i : Nat) (v : α) : Nat → α :=
  fun j => if j = i then v else f j

/-- Lookup of a content hash in the prefix-cache index (an association list
from content-hash keys to slot ids). -/
def cacheLookup (key : List (List Nat)) :
    List (List (List Nat) × Nat) → Option Nat
  | [] => none
  | e :: rest => if e.1 = key then some e.2 else cacheLookup key rest

/-- Modelled from the spec: the state of one `BlockAllocator` tier
(abstract in interfaces.py lines 47-92) in its prefix-caching variant — a
fixed pool of `numBlocks` slots with per-slot refcounts, token content and
computed flags, the free/eviction-eligible pool `freeBlockIds` (slot ids
with refcount 0; their content and hash stay registered until the slot is
reused, implementing lazy eviction), the content-hash cache index, and the
pending copy-on-write entries drained by `clear_copy_on_writes`.  The
content hash of a block is taken to be the list of token-id lists of its
whole prefix chain, an injective realisation of the spec's hash over
`(prev_block content hash, token_ids)`. -/
structure AllocState where
  numBlocks : Nat
  blockSize : Nat
  refcount : Nat → Nat
  content : Nat → List Nat
  computed : Nat → Bool
  freeBlockIds : List Nat
  cache : List (List (List Nat) × Nat)
  cows : List (Nat × Nat)

/-- Modelled from the spec: a freshly constructed allocator — every slot in
`[0, numBlocks)` starts `FREE` (refcount 0, empty content, not computed). -/
def initAlloc (numBlocks blockSize : Nat) : AllocState where
  numBlocks := numBlocks
  blockSize := blockSize
  refcount := fun _ => 0
  content := fun _ => []
  computed := fun _ => false
  freeBlockIds := List.range numBlocks
  cache := []
  cows := []

/-- Modelled from the spec: `BlockAllocator.allocate_mutable` (abstract in
interfaces.py lines 49-51) — claim a slot from the free/eviction-eligible
pool with refcount 1, discarding the reused slot's stale content and cache
registration; fail with `NoFreeBlocksError` when the pool is exhausted. -/
def AllocState.allocateMutable (s : AllocState) :
    Except AllocError (Nat × AllocState) :=
  match s.freeBlockIds with
  | [] => .error .noFreeBlocks
  | id :: rest =>
    .ok (id, { s with
      freeBlockIds := rest
      refcount := upd s.refcount id 1
      content := upd s.content id []
      computed := upd s.computed id false
      cache := s.cache.filter (fun e => e.2 ≠ id) })

/-- Modelled from the spec: `BlockAllocator.allocate_immutable` (abstract in
interfaces.py lines 53-56) — compute the content hash over the previous
chain's hash and `tokenIds`; on a cache hit increment that slot's refcount
(reclaiming it from the eviction-eligible pool if needed) and return it;
on a miss claim a fresh slot, write `tokenIds`, mark it not yet computed
and register the hash. -/
def AllocState.allocateImmutable (s : AllocState)
    (prevHash : List (List Nat)) (tokenIds : List Nat) :
    Except AllocError (Nat × AllocState) :=
  match cacheLookup (prevHash ++ [tokenIds]) s.cache with
  | some id =>
    .ok (id, { s with
      refcount := upd s.refcount id (s.refcount id + 1)
      freeBlockIds := s.freeBlockIds.filter (fun j => j ≠ id) })
  | none =>
    match s.freeBlockIds with
    | [] => .error .noFreeBlocks
    | id :: rest =>
      .ok (id, { s with
        freeBlockIds := rest
        refcount := upd s.refcount id 1
        content := upd s.content id tokenIds
        computed := upd s.computed id false
        cache := (prevHash ++ [tokenIds], id) ::
          s.cache.filter (fun e => e.2 ≠ id) })

/-- Modelled from the spec: `BlockAllocator.free` (abstract in interfaces.py
lines 58-60) — decrement the slot's refcount; when it reaches zero move the
slot to the eviction-eligible pool with its content and hash intact.
Freeing a slot whose refcount is already zero is an invariant violation and
fails loudly rather than driving the refcount below zero. -/
def AllocState.freeBlock (s : AllocState) (id : Nat) :
    Except AllocError AllocState :=
  match s.refcount id with
  | 0 => .error .invariantViolation
  | n + 1 =>
    if n = 0 then
      .ok { s with
        refcount := upd s.refcount id 0
        freeBlockIds := s.freeBlockIds ++ [id] }
    else
      .ok { s with refcount := upd s.refcount id n }

/-- Increment one slot's refcount. -/
def AllocState.incRef (s : AllocState) (id : Nat) : AllocState :=
  { s with refcount := upd s.refcount id (s.refcount id + 1) }

/-- The walk of `fork`: from the last block, follow `prev_block` links back
to the chain's root, incrementing the refcount of every block visited. -/
def AllocState.forkWalk (s : AllocState) : Chain → AllocState
  | .nil => s
  | .snoc p id => AllocState.forkWalk (s.incRef id) p

/-- Modelled from the spec: `BlockAllocator.fork` (abstract in interfaces.py
lines 62-64) — walk the `prev_block` links of `lastBlock` to the root,
incrementing refcount along the way, and return the full chain ordered from
root outward as the new logical owner's view; no content is copied. -/
def AllocState.fork (s : AllocState) (lastBlock : Chain) :
    List Nat × AllocState :=
  (lastBlock.ids, s.forkWalk lastBlock)

/-- Modelled from the spec: `BlockAllocator.get_num_free_blocks` (abstract
in interfaces.py lines 66-68) — the number of refcount-zero slots,
eviction-eligible slots counted as free. -/
def AllocState.getNumFreeBlocks (s : AllocState) : Nat :=
  s.freeBlockIds.length

/-- Modelled from the spec: extending a block that may be shared.  When the
slot's refcount is 1 the content is appended in place; when the refcount is
greater than 1 the allocator instead claims a fresh destination slot,
copies the logical token content plus the appended ids there, decrements
the source slot's refcount, and records a deferred `(source, destination)`
copy-on-write entry for `clear_copy_on_writes`.  Either way the capacity
bound of `append_token_ids` is enforced. -/
def AllocState.cowAppendBlock (s : AllocState) (src : Nat) (ids : List Nat) :
    Except AllocError (Nat × AllocState) :=
  if s.refcount src ≤ 1 then
    if s.blockSize < (s.content src).length + ids.length then
      .error .capacityExceeded
    else
      .ok (src, { s with content := upd s.content src (s.content src ++ ids) })
  else
    match s.freeBlockIds with
    | [] => .error .noFreeBlocks
    | d :: rest =>
      if s.blockSize < (s.content src).length + ids.length then
        .error .capacityExceeded
      else
        .ok (d, { s with
          freeBlockIds := rest
          refcount := upd (upd s.refcount src (s.refcount src - 1)) d 1
          content := upd s.content d (s.content src ++ ids)
          computed := upd s.computed d false
          cache := s.cache.filter (fun e => e.2 ≠ d)
          cows := s.cows ++ [(src, d)] })

/-- Appending through a chain handle: the mutated block is the chain's last
block; on copy-on-write the owner's view is rewritten onto the fresh
destination slot. -/
def AllocState.appendToChain (s : AllocState) (c : Chain) (ids : List Nat) :
    Except AllocError (Chain × AllocState) :=
  match c with
  | .nil => .error .invariantViolation
  | .snoc p src =>
    match s.cowAppendBlock src ids with
    | .error e => .error e
    | .ok (d, s') => .ok (.snoc p d, s')

/-- Group a list of `(source, destination)` copy entries into the
`source -> [destinations]` mapping returned by `clear_copy_on_writes`. -/
def insertCow (acc : List (Nat × List Nat)) (src dst : Nat) :
    List (Nat × List Nat) :=
  match acc with
  | [] => [(src, [dst])]
  | e :: rest =>
    if e.1 = src then (e.1, e.2 ++ [dst]) :: rest
    else e :: insertCow rest src dst

/-- The grouped copy-on-write mapping of a list of pending entries. -/
def groupCows (l : List (Nat × Nat)) : List (Nat × List Nat) :=
  l.foldl (fun acc e => insertCow acc e.1 e.2) []

/-- Modelled from the spec: `BlockAllocator.clear_copy_on_writes` (abstract
in interfaces.py lines 74-76) — drain and return the deferred
source-to-destinations copy mapping accumulated during the current
scheduling step. -/
def AllocState.clearCopyOnWrites (s : AllocState) :
    List (Nat × List Nat) × AllocState :=
  (groupCows s.cows, { s with cows := [] })

/-- `isInit a b` holds when `a` is an initial segment (leading run) of
`b`. -/
def isInit : List Nat → List Nat → Bool
  | [], _ => true
  | _ :: _, [] => false
  | a :: as, b :: bs => a = b && isInit as bs

/-- The longest common initial segment of two id lists: walk both from the
front and stop at the first divergence. -/
def commonStem : List Nat → List Nat → List Nat
  | x :: xs, y :: ys => if x = y then x :: commonStem xs ys else []
  | _, _ => []

/-- The leading run of ids whose `computed` flag is set, stopping at the
first not-yet-computed block. -/
def takeComputed (s : AllocState) : List Nat → List Nat
  | [] => []
  | x :: xs => if s.computed x then x :: takeComputed s xs else []

/-- Modelled from the spec: `BlockAllocator.get_common_computed_block_ids`
(abstract in interfaces.py lines 86-89) — the longest common leading run of
block ids identical in every sequence's list and marked computed, ordered
from chain root outward, stopping at the first divergence or the first
not-yet-computed block. -/
def AllocState.getCommonComputedBlockIds (s : AllocState)
    (seqBlockIds : List (List Nat)) : List Nat :=
  match seqBlockIds with
  | [] => []
  | l :: ls => takeComputed s (ls.foldl commonStem l)

/-- Whether every block of a chain is a live handle of this allocator:
a valid slot id with refcount at least 1. -/
def AllocState.chainLive (s : AllocState) (c : Chain) : Bool :=
  c.ids.all fun id => decide (id < s.numBlocks) && decide (1 ≤ s.refcount id)

/-- One operation of the allocation/sharing protocol, as issued by a
sequence owner. -/
inductive AllocOp where
  | allocMut
  | allocImm (prevHash : List (List Nat)) (tokenIds : List Nat)
  | freeOp (id : Nat)
  | forkOp (c : Chain)
  | appendOp (c : Chain) (ids : List Nat)

/-- One protocol step: failed operations surface their error to the caller
and leave the allocator state unchanged; `fork` and chain appends are
issued through live chain handles only (a dead handle fails loudly as an
invariant violation, changing nothing). -/
def AllocState.step (s : AllocState) : AllocOp → AllocState
  | .allocMut =>
    match s.allocateMutable with
    | .ok (_, s') => s'
    | .error _ => s
  | .allocImm ph t =>
    match s.allocateImmutable ph t with
    | .ok (_, s') => s'
    | .error _ => s
  | .freeOp id =>
    match s.freeBlock id with
    | .ok s' => s'
    | .error _ => s
  | .forkOp c => if s.chainLive c then (s.fork c).2 else s
  | .appendOp c ids =>
    if s.chainLive c then
      match s.appendToChain c ids with
      | .ok (_, s') => s'
      | .error _ => s
    else s

/-- Run a sequence of protocol operations from a state. -/
def AllocState.run (s : AllocState) (ops : List AllocOp) : AllocState :=
  ops.foldl AllocState.step s

/-- The allocator's state invariants: I1 (refcount at least 1 off the free
pool), the free/allocated partition with no duplicates (I2), validity of
every pooled id and every cached id, and refcount 0 outside the pool's id
range. -/
def Inv (s : AllocState) : Prop :=
  (∀ id, id < s.numBlocks → id ∉ s.freeBlockIds → 1 ≤ s.refcount id) ∧
  (∀ id ∈ s.freeBlockIds, s.refcount id = 0) ∧
  s.freeBlockIds.Nodup ∧
  (∀ id ∈ s.freeBlockIds, id < s.numBlocks) ∧
  (∀ id, s.numBlocks ≤ id → s.refcount id = 0) ∧
  (∀ e ∈ s.cache, e.2 < s.numBlocks)

/-- Modelled from the spec: the `Device` tier tag
(`aphrodite.common.utils.Device`, imported by interfaces.py line 4 but not
shipped) — one tag per memory tier. -/
inductive Device where
  | gpu
  | cpu
deriving DecidableEq, Repr

/-- Modelled from the spec: the state of a `DeviceAwareBlockAllocator`
(interfaces.py lines 95-109) — one independent `BlockAllocator` per memory
tier. -/
structure DeviceAwareState where
  tiers : Device → AllocState

/-- `DeviceAwareBlockAllocator.allocate_mutable(prev_block, device)`
(interfaces.py lines 97-100): dispatch to the tier selected by the
explicit `Device` argument. -/
def DeviceAwareState.allocateMutable (s : DeviceAwareState) (d : Device) :
    Except AllocError (Nat × DeviceAwareState) :=
  match (s.tiers d).allocateMutable with
  | .error e => .error e
  | .ok (id, t') => .ok (id, ⟨fun d' => if d' = d then t' else s.tiers d'⟩)

/-- `DeviceAwareBlockAllocator.allocate_immutable(prev_block, token_ids,
device)` (interfaces.py lines 102-105): dispatch to the tier selected by
the explicit `Device` argument. -/
def DeviceAwareState.allocateImmutable (s : DeviceAwareState)
    (prevHash : List (List Nat)) (tokenIds : List Nat) (d : Device) :
    Except AllocError (Nat × DeviceAwareState) :=
  match (s.tiers d).allocateImmutable prevHash tokenIds with
  | .error e => .error e
  | .ok (id, t') => .ok (id, ⟨fun d' => if d' = d then t' else s.tiers d'⟩)

/-- `DeviceAwareBlockAllocator.get_num_free_blocks(device)` (interfaces.py
lines 107-109): query the tier selected by the explicit `Device`
argument. -/
def DeviceAwareState.getNumFreeBlocks (s : DeviceAwareState) (d : Device) :
    Nat :=
  (s.tiers d).getNumFreeBlocks

/-! ### Basic lemmas about the slot tables and the operations -/

theorem upd_self {α : Type} (f : Nat → α) (i : Nat) (v : α) :
    upd f i v i = v := by
  simp [upd]

theorem upd_ne {α : Type} (f : Nat → α) (i j : Nat) (v : α) (h : j ≠ i) :
    upd f i v j = f j := by
  simp [upd, h]

theorem allocMut_of_nil (s : AllocState) (h : s.freeBlockIds = []) :
    s.allocateMutable = .error .noFreeBlocks := by
  unfold AllocState.allocateMutable
  rw [h]

theorem allocMut_of_cons (s : AllocState) (a : Nat) (rest : List Nat)
    (h : s.freeBlockIds = a :: rest) :
    s.allocateMutable = .ok (a, { s with
      freeBlockIds := rest
      refcount := upd s.refcount a 1
      content := upd s.content a []
      computed := upd s.computed a false
      cache := s.cache.filter (fun e => e.2 ≠ a) }) := by
  unfold AllocState.allocateMutable
  rw [h]

theorem allocImm_of_hit (s : AllocState) (prevHash : List (List Nat))
    (tokenIds : List Nat) (id : Nat)
    (h : cacheLookup (prevHash ++ [tokenIds]) s.cache = some id) :
    s.allocateImmutable prevHash tokenIds = .ok (id, { s with
      refcount := upd s.refcount id (s.refcount id + 1)
      freeBlockIds := s.freeBlockIds.filter (fun j => j ≠ id) }) := by
  unfold AllocState.allocateImmutable
  rw [h]

theorem allocImm_of_miss_nil (s : AllocState) (prevHash : List (List Nat))
    (tokenIds : List Nat)
    (h : cacheLookup (prevHash ++ [tokenIds]) s.cache = none)
    (hf : s.freeBlockIds = []) :
    s.allocateImmutable prevHash tokenIds = .error .noFreeBlocks := by
  unfold AllocState.allocateImmutable
  rw [h, hf]

theorem allocImm_of_miss_cons (s : AllocState) (prevHash : List (List Nat))
    (tokenIds : List Nat) (a : Nat) (rest : List Nat)
    (h : cacheLookup (prevHash ++ [tokenIds]) s.cache = none)
    (hf : s.freeBlockIds = a :: rest) :
    s.allocateImmutable prevHash tokenIds = .ok (a, { s with
      freeBlockIds := rest
      refcount := upd s.refcount a 1
      content := upd s.content a tokenIds
      computed := upd s.computed a false
      cache := (prevHash ++ [tokenIds], a) ::
        s.cache.filter (fun e => e.2 ≠ a) }) := by
  unfold AllocState.allocateImmutable
  rw [h, hf]

theorem freeBlock_of_zero (s : AllocState) (id : Nat)
    (h : s.refcount id = 0) :
    s.freeBlock id = .error .invariantViolation := by
  unfold AllocState.freeBlock
  rw [h]

theorem freeBlock_of_one (s : AllocState) (id : Nat)
    (h : s.refcount id = 1) :
    s.freeBlock id = .ok { s with
      refcount := upd s.refcount id 0
      freeBlockIds := s.freeBlockIds ++ [id] } := by
  unfold AllocState.freeBlock
  rw [h]
  exact if_pos rfl

theorem freeBlock_of_many (s : AllocState) (id n : Nat)
    (h : s.refcount id = n + 2) :
    s.freeBlock id = .ok { s with refcount := upd s.refcount id (n + 1) } := by
  unfold AllocState.freeBlock
  rw [h]
  simp

theorem cowAppend_exclusive (s : AllocState) (src : Nat) (ids : List Nat)
    (h1 : s.refcount src ≤ 1)
    (h2 : (s.content src).length + ids.length ≤ s.blockSize) :
    s.cowAppendBlock src ids = .ok (src,
      { s with content := upd s.content src (s.content src ++ ids) }) := by
  unfold AllocState.cowAppendBlock
  rw [if_pos h1, if_neg (by omega)]

theorem cowAppend_shared (s : AllocState) (src : Nat) (ids : List Nat)
    (d : Nat) (rest : List Nat)
    (h1 : 2 ≤ s.refcount src)
    (hf : s.freeBlockIds = d :: rest)
    (h2 : (s.content src).length + ids.length ≤ s.blockSize) :
    s.cowAppendBlock src ids = .ok (d, { s with
      freeBlockIds := rest
      refcount := upd (upd s.refcount src (s.refcount src - 1)) d 1
      content := upd s.content d (s.content src ++ ids)
      computed := upd s.computed d false
      cache := s.cache.filter (fun e => e.2 ≠ d)
      cows := s.cows ++ [(src, d)] }) := by
  unfold AllocState.cowAppendBlock
  rw [if_neg (by omega), hf]
  exact if_neg (by omega)

theorem cowAppend_exclusive_err (s : AllocState) (src : Nat) (ids : List Nat)
    (h1 : s.refcount src ≤ 1)
    (h2 : s.blockSize < (s.content src).length + ids.length) :
    s.cowAppendBlock src ids = .error .capacityExceeded := by
  unfold AllocState.cowAppendBlock
  rw [if_pos h1, if_pos h2]

theorem cowAppend_shared_nil (s : AllocState) (src : Nat) (ids : List Nat)
    (h1 : 2 ≤ s.refcount src) (hf : s.freeBlockIds = []) :
    s.cowAppendBlock src ids = .error .noFreeBlocks := by
  unfold AllocState.cowAppendBlock
  rw [if_neg (by omega), hf]

theorem cowAppend_shared_err (s : AllocState) (src : Nat) (ids : List Nat)
    (d : Nat) (rest : List Nat)
    (h1 : 2 ≤ s.refcount src)
    (hf : s.freeBlockIds = d :: rest)
    (h2 : s.blockSize < (s.content src).length + ids.length) :
    s.cowAppendBlock src ids = .error .capacityExceeded := by
  unfold AllocState.cowAppendBlock
  rw [if_neg (by omega), hf]
  exact if_pos h2

theorem cacheLookup_mem (key : List (List Nat))
    (l : List (List (List Nat) × Nat)) (id : Nat)
    (h : cacheLookup key l = some id) : ∃ e ∈ l, e.2 = id := by
  induction l with
  | nil => exact absurd h (by simp [cacheLookup])
  | cons e rest ih =>
    unfold cacheLookup at h
    by_cases he : e.1 = key
    · rw [if_pos he] at h
      exact ⟨e, List.mem_cons_self _ _, Option.some.inj h⟩
    · rw [if_neg he] at h
      obtain ⟨e', he', hid⟩ := ih h
      exact ⟨e', List.mem_cons_of_mem _ he', hid⟩

theorem chainLive_spec (s : AllocState) (c : Chain) :
    s.chainLive c = true ↔
      ∀ id ∈ c.ids, id < s.numBlocks ∧ 1 ≤ s.refcount id := by
  simp [AllocState.chainLive, List.all_eq_true]

/-! ### Preservation of the allocator invariants -/

theorem inv_init (n bs : Nat) : Inv (initAlloc n bs) := by
  refine ⟨?_, ?_, ?_, ?_, ?_, ?_⟩
  · intro id h1 h2
    exact absurd (List.mem_range.mpr h1) h2
  · intro id _
    rfl
  · exact List.nodup_range n
  · intro id h
    exact List.mem_range.mp h
  · intro id _
    rfl
  · intro e he
    exact absurd he (List.not_mem_nil e)

theorem inv_allocMut (s : AllocState) (hs : Inv s) (id : Nat)
    (s' : AllocState) (h : s.allocateMutable = .ok (id, s')) : Inv s' := by
  obtain ⟨h1, h2, h3, h4, h5, h6⟩ := hs
  cases hf : s.freeBlockIds with
  | nil =>
    rw [allocMut_of_nil s hf] at h
    exact Except.noConfusion h
  | cons a rest =>
    rw [allocMut_of_cons s a rest hf] at h
    simp only [Except.ok.injEq, Prod.mk.injEq] at h
    obtain ⟨rfl, rfl⟩ := h
    have hnd : List.Nodup (a :: rest) := hf ▸ h3
    rw [List.nodup_cons] at hnd
    refine ⟨?_, ?_, hnd.2, ?_, ?_, ?_⟩ <;> dsimp only
    · intro j hj hjn
      by_cases hja : j = a
      · subst hja
        rw [upd_self]
      · rw [upd_ne _ _ _ _ hja]
        refine h1 j hj ?_
        rw [hf]
        intro hmem
        rcases List.mem_cons.mp hmem with hc | hc
        · exact hja hc
        · exact hjn hc
    · intro j hjmem
      have hja : j ≠ a := fun e => hnd.1 (e ▸ hjmem)
      rw [upd_ne _ _ _ _ hja]
      exact h2 j (by rw [hf]; exact List.mem_cons_of_mem _ hjmem)
    · intro j hj
      exact h4 j (by rw [hf]; exact List.mem_cons_of_mem _ hj)
    · intro j hj
      have hja : j ≠ a := by
        intro e
        subst e
        have := h4 j (by rw [hf]; exact List.mem_cons_self _ _)
        omega
      rw [upd_ne _ _ _ _ hja]
      exact h5 j hj
    · intro e he
      exact h6 e (List.mem_filter.mp he).1

theorem inv_allocImm (s : AllocState) (hs : Inv s)
    (prevHash : List (List Nat)) (tokenIds : List Nat) (id : Nat)
    (s' : AllocState)
    (h : s.allocateImmutable prevHash tokenIds = .ok (id, s')) : Inv s' := by
  obtain ⟨h1, h2, h3, h4, h5, h6⟩ := hs
  cases hc : cacheLookup (prevHash ++ [tokenIds]) s.cache with
  | some b =>
    rw [allocImm_of_hit s prevHash tokenIds b hc] at h
    simp only [Except.ok.injEq, Prod.mk.injEq] at h
    obtain ⟨rfl, rfl⟩ := h
    have hbn : b < s.numBlocks := by
      obtain ⟨e, he, he2⟩ := cacheLookup_mem _ _ b hc
      exact he2 ▸ h6 e he
    refine ⟨?_, ?_, h3.filter _, ?_, ?_, h6⟩ <;> dsimp only
    · intro j hj hjn
      by_cases hjb : j = b
      · subst hjb
        rw [upd_self]
        omega
      · rw [upd_ne _ _ _ _ hjb]
        refine h1 j hj ?_
        intro hmem
        exact hjn (List.mem_filter.mpr ⟨hmem, by simp [hjb]⟩)
    · intro j hjmem
      obtain ⟨hjf, hjb⟩ := List.mem_filter.mp hjmem
      have hjb' : j ≠ b := by simpa using hjb
      rw [upd_ne _ _ _ _ hjb']
      exact h2 j hjf
    · intro j hj
      exact h4 j (List.mem_filter.mp hj).1
    · intro j hj
      have hjb : j ≠ b := by omega
      rw [upd_ne _ _ _ _ hjb]
      exact h5 j hj
  | none =>
    cases hf : s.freeBlockIds with
    | nil =>
      rw [allocImm_of_miss_nil s prevHash tokenIds hc hf] at h
      exact Except.noConfusion h
    | cons a rest =>
      rw [allocImm_of_miss_cons s prevHash tokenIds a rest hc hf] at h
      simp only [Except.ok.injEq, Prod.mk.injEq] at h
      obtain ⟨rfl, rfl⟩ := h
      have hnd : List.Nodup (a :: rest) := hf ▸ h3
      rw [List.nodup_cons] at hnd
      have han : a < s.numBlocks := h4 a (by rw [hf]; exact List.mem_cons_self _ _)
      refine ⟨?_, ?_, hnd.2, ?_, ?_, ?_⟩ <;> dsimp only
      · intro j hj hjn
        by_cases hja : j = a
        · subst hja
          rw [upd_self]
        · rw [upd_ne _ _ _ _ hja]
          refine h1 j hj ?_
          rw [hf]
          intro hmem
          rcases List.mem_cons.mp hmem with hcj | hcj
          · exact hja hcj
          · exact hjn hcj
      · intro j hjmem
        have hja : j ≠ a := fun e => hnd.1 (e ▸ hjmem)
        rw [upd_ne _ _ _ _ hja]
        exact h2 j (by rw [hf]; exact List.mem_cons_of_mem _ hjmem)
      · intro j hj
        exact h4 j (by rw [hf]; exact List.mem_cons_of_mem _ hj)
      · intro j hj
        have hja : j ≠ a := by omega
        rw [upd_ne _ _ _ _ hja]
        exact h5 j hj
      · intro e he
        rcases List.mem_cons.mp he with hcj | hcj
        · rw [hcj]
          exact han
        · exact h6 e (List.mem_filter.mp hcj).1

theorem inv_freeBlock (s : AllocState) (hs : Inv s) (id : Nat)
    (s' : AllocState) (h : s.freeBlock id = .ok s') : Inv s' := by
  obtain ⟨h1, h2, h3, h4, h5, h6⟩ := hs
  cases hr : s.refcount id with
  | zero =>
    rw [freeBlock_of_zero s id hr] at h
    exact Except.noConfusion h
  | succ m =>
    cases m with
    | zero =>
      rw [freeBlock_of_one s id hr] at h
      simp only [Except.ok.injEq] at h
      obtain rfl := h.symm
      have hid_n : id < s.numBlocks := by
        by_contra hc
        have := h5 id (by omega)
        omega
      have hid_free : id ∉ s.freeBlockIds := by
        intro hc
        have := h2 id hc
        omega
      refine ⟨?_, ?_, ?_, ?_, ?_, h6⟩ <;> dsimp only
      · intro j hj hjn
        have hja : j ≠ id := by
          intro e
          subst e
          exact hjn (List.mem_append_right _ (List.mem_singleton.mpr rfl))
        rw [upd_ne _ _ _ _ hja]
        refine h1 j hj ?_
        intro hmem
        exact hjn (List.mem_append_left _ hmem)
      · intro j hjmem
        rcases List.mem_append.mp hjmem with hm | hm
        · have hja : j ≠ id := fun e => hid_free (e ▸ hm)
          rw [upd_ne _ _ _ _ hja]
          exact h2 j hm
        · rw [List.mem_singleton.mp hm, upd_self]
      · rw [List.nodup_append]
        exact ⟨h3, List.nodup_singleton id,
          fun j hj hjm => hid_free ((List.mem_singleton.mp hjm) ▸ hj)⟩
      · intro j hj
        rcases List.mem_append.mp hj with hm | hm
        · exact h4 j hm
        · rw [List.mem_singleton.mp hm]
          exact hid_n
      · intro j hj
        have hja : j ≠ id := by omega
        rw [upd_ne _ _ _ _ hja]
        exact h5 j hj
    | succ m' =>
      rw [freeBlock_of_many s id m' hr] at h
      simp only [Except.ok.injEq] at h
      obtain rfl := h.symm
      refine ⟨?_, ?_, h3, h4, ?_, h6⟩ <;> dsimp only
      · intro j hj hjn
        by_cases hja : j = id
        · subst hja
          rw [upd_self]
          omega
        · rw [upd_ne _ _ _ _ hja]
          exact h1 j hj hjn
      · intro j hjmem
        have hja : j ≠ id := by
          intro e
          have := h2 j hjmem
          rw [e] at this
          omega
        rw [upd_ne _ _ _ _ hja]
        exact h2 j hjmem
      · intro j hj
        have hja : j ≠ id := by
          intro e
          have := h5 j hj
          rw [e] at this
          omega
        rw [upd_ne _ _ _ _ hja]
        exact h5 j hj

theorem incRef_refcount (s : AllocState) (id j : Nat) :
    (s.incRef id).refcount j =
      if j = id then s.refcount j + 1 else s.refcount j := by
  unfold AllocState.incRef
  by_cases hj : j = id
  · subst hj
    rw [if_pos rfl]
    exact upd_self _ _ _
  · rw [if_neg hj]
    exact upd_ne _ _ _ _ hj

theorem inv_incRef (s : AllocState) (hs : Inv s) (id : Nat)
    (hid : id < s.numBlocks) (hlive : 1 ≤ s.refcount id) :
    Inv (s.incRef id) := by
  obtain ⟨h1, h2, h3, h4, h5, h6⟩ := hs
  refine ⟨?_, ?_, h3, h4, ?_, h6⟩
  · intro j hj hjn
    rw [incRef_refcount]
    by_cases hja : j = id
    · rw [if_pos hja]
      omega
    · rw [if_neg hja]
      exact h1 j hj hjn
  · intro j hjmem
    rw [incRef_refcount]
    have hja : j ≠ id := by
      intro e
      have := h2 j hjmem
      rw [e] at this
      omega
    rw [if_neg hja]
    exact h2 j hjmem
  · intro j hj
    rw [incRef_refcount]
    have hj' : s.numBlocks ≤ j := hj
    have hja : j ≠ id := by omega
    rw [if_neg hja]
    exact h5 j hj

theorem inv_forkWalk (c : Chain) : ∀ s : AllocState, Inv s →
    (∀ id ∈ c.ids, id < s.numBlocks ∧ 1 ≤ s.refcount id) →
    Inv (s.forkWalk c) := by
  induction c with
  | nil => exact fun s hs _ => hs
  | snoc p id ih =>
    intro s hs hlive
    have hid := hlive id (by simp [Chain.ids])
    refine ih (s.incRef id) (inv_incRef s hs id hid.1 hid.2) ?_
    intro j hj
    have hjl := hlive j (by simp [Chain.ids]; exact Or.inl hj)
    refine ⟨hjl.1, ?_⟩
    rw [incRef_refcount]
    by_cases hji : j = id
    · rw [if_pos hji]
      omega
    · rw [if_neg hji]
      exact hjl.2

theorem inv_cowAppend (s : AllocState) (hs : Inv s) (src : Nat)
    (ids : List Nat) (d : Nat) (s' : AllocState)
    (h : s.cowAppendBlock src ids = .ok (d, s')) : Inv s' := by
  obtain ⟨h1, h2, h3, h4, h5, h6⟩ := hs
  by_cases hx : s.refcount src ≤ 1
  · by_cases hcap : (s.content src).length + ids.length ≤ s.blockSize
    · rw [cowAppend_exclusive s src ids hx hcap] at h
      simp only [Except.ok.injEq, Prod.mk.injEq] at h
      obtain ⟨rfl, rfl⟩ := h
      exact ⟨h1, h2, h3, h4, h5, h6⟩
    · rw [cowAppend_exclusive_err s src ids hx (by omega)] at h
      exact Except.noConfusion h
  · have hx2 : 2 ≤ s.refcount src := by omega
    cases hf : s.freeBlockIds with
    | nil =>
      rw [cowAppend_shared_nil s src ids hx2 hf] at h
      exact Except.noConfusion h
    | cons d0 rest =>
      by_cases hcap : (s.content src).length + ids.length ≤ s.blockSize
      · rw [cowAppend_shared s src ids d0 rest hx2 hf hcap] at h
        simp only [Except.ok.injEq, Prod.mk.injEq] at h
        obtain ⟨rfl, rfl⟩ := h
        have hnd : List.Nodup (d0 :: rest) := hf ▸ h3
        rw [List.nodup_cons] at hnd
        have hd0n : d0 < s.numBlocks :=
          h4 d0 (by rw [hf]; exact List.mem_cons_self _ _)
        have hd0r : s.refcount d0 = 0 :=
          h2 d0 (by rw [hf]; exact List.mem_cons_self _ _)
        have hds : d0 ≠ src := by
          intro e
          rw [e] at hd0r
          omega
        have hsrc_n : src < s.numBlocks := by
          by_contra hc
          have := h5 src (by omega)
          omega
        refine ⟨?_, ?_, hnd.2, ?_, ?_, ?_⟩ <;> dsimp only
        · intro j hj hjn
          by_cases hjd : j = d0
          · subst hjd
            rw [upd_self]
          · rw [upd_ne _ _ _ _ hjd]
            by_cases hjs : j = src
            · subst hjs
              rw [upd_self]
              omega
            · rw [upd_ne _ _ _ _ hjs]
              refine h1 j hj ?_
              rw [hf]
              intro hmem
              rcases List.mem_cons.mp hmem with hcj | hcj
              · exact hjd hcj
              · exact hjn hcj
        · intro j hjmem
          have hjd : j ≠ d0 := fun e => hnd.1 (e ▸ hjmem)
          have hj0 : s.refcount j = 0 :=
            h2 j (by rw [hf]; exact List.mem_cons_of_mem _ hjmem)
          have hjs : j ≠ src := by
            intro e
            rw [e] at hj0
            omega
          rw [upd_ne _ _ _ _ hjd, upd_ne _ _ _ _ hjs]
          exact hj0
        · intro j hj
          exact h4 j (by rw [hf]; exact List.mem_cons_of_mem _ hj)
        · intro j hj
          have hjd : j ≠ d0 := by omega
          have hjs : j ≠ src := by omega
          rw [upd_ne _ _ _ _ hjd, upd_ne _ _ _ _ hjs]
          exact h5 j hj
        · intro e he
          exact h6 e (List.mem_filter.mp he).1
      · rw [cowAppend_shared_err s src ids d0 rest hx2 hf (by omega)] at h
        exact Except.noConfusion h

theorem inv_step (s : AllocState) (hs : Inv s) (op : AllocOp) :
    Inv (s.step op) := by
  cases op with
  | allocMut =>
    simp only [AllocState.step]
    cases h : s.allocateMutable with
    | error e => exact hs
    | ok r =>
      obtain ⟨id, s'⟩ := r
      exact inv_allocMut s hs id s' h
  | allocImm ph t =>
    simp only [AllocState.step]
    cases h : s.allocateImmutable ph t with
    | error e => exact hs
    | ok r =>
      obtain ⟨id, s'⟩ := r
      exact inv_allocImm s hs ph t id s' h
  | freeOp id =>
    simp only [AllocState.step]
    cases h : s.freeBlock id with
    | error e => exact hs
    | ok s' => exact inv_freeBlock s hs id s' h
  | forkOp c =>
    simp only [AllocState.step]
    by_cases hl : s.chainLive c = true
    · rw [if_pos hl]
      exact inv_forkWalk c s hs ((chainLive_spec s c).mp hl)
    · rw [if_neg hl]
      exact hs
  | appendOp c ids =>
    simp only [AllocState.step]
    by_cases hl : s.chainLive c = true
    · rw [if_pos hl]
      cases c with
      | nil => exact hs
      | snoc p src =>
        cases h : s.cowAppendBlock src ids with
        | error e =>
          have happ : s.appendToChain (.snoc p src) ids = .error e := by
            simp only [AllocState.appendToChain]
            rw [h]
          rw [happ]
          exact hs
        | ok r =>
          obtain ⟨d, s'⟩ := r
          have happ : s.appendToChain (.snoc p src) ids = .ok (.snoc p d, s') := by
            simp only [AllocState.appendToChain]
            rw [h]
          rw [happ]
          exact inv_cowAppend s hs src ids d s' h
    · rw [if_neg hl]
      exact hs

theorem inv_run (ops : List AllocOp) : ∀ s : AllocState, Inv s →
    Inv (s.run ops) := by
  induction ops with
  | nil => exact fun s hs => hs
  | cons op rest ih =>
    intro s hs
    exact ih (s.step op) (inv_step s hs op)

/-! ### Lemmas about fork -/

/-- How many times a slot id occurs along a chain. -/
def Chain.countId : Chain → Nat → Nat
  | .nil, _ => 0
  | .snoc p id, j => Chain.countId p j + (if id = j then 1 else 0)

theorem countId_snoc (p : Chain) (id j : Nat) :
    (Chain.snoc p id).countId j = p.countId j + (if id = j then 1 else 0) :=
  rfl

theorem forkWalk_refcount (c : Chain) : ∀ (s : AllocState) (j : Nat),
    (s.forkWalk c).refcount j = s.refcount j + c.countId j := by
  induction c with
  | nil =>
    intro s j
    rfl
  | snoc p id ih =>
    intro s j
    show (AllocState.forkWalk (s.incRef id) p).refcount j = _
    rw [ih, incRef_refcount, countId_snoc]
    by_cases hj : j = id
    · subst hj
      rw [if_pos rfl, if_pos rfl]
      omega
    · rw [if_neg hj, if_neg (fun e => hj e.symm)]
      omega

theorem forkWalk_fields (c : Chain) : ∀ s : AllocState,
    (s.forkWalk c).numBlocks = s.numBlocks ∧
    (s.forkWalk c).blockSize = s.blockSize ∧
    (s.forkWalk c).content = s.content ∧
    (s.forkWalk c).computed = s.computed ∧
    (s.forkWalk c).freeBlockIds = s.freeBlockIds ∧
    (s.forkWalk c).cache = s.cache ∧
    (s.forkWalk c).cows = s.cows := by
  induction c with
  | nil => exact fun s => ⟨rfl, rfl, rfl, rfl, rfl, rfl, rfl⟩
  | snoc p id ih => exact fun s => ih (s.incRef id)

theorem countId_of_not_mem (c : Chain) (j : Nat) (h : j ∉ c.ids) :
    c.countId j = 0 := by
  induction c with
  | nil => rfl
  | snoc p id ih =>
    simp only [Chain.ids, List.mem_append, List.mem_singleton] at h
    push_neg at h
    unfold Chain.countId
    rw [ih h.1, if_neg (fun e => h.2 e.symm)]

theorem countId_of_mem_nodup (c : Chain) (j : Nat) (hnd : c.ids.Nodup)
    (h : j ∈ c.ids) : c.countId j = 1 := by
  induction c with
  | nil => exact absurd h (List.not_mem_nil j)
  | snoc p id ih =>
    simp only [Chain.ids] at h hnd
    rw [List.nodup_append] at hnd
    unfold Chain.countId
    rcases List.mem_append.mp h with hm | hm
    · have hij : id ≠ j := by
        intro e
        subst e
        exact hnd.2.2 hm (List.mem_singleton.mpr rfl)
      rw [ih hnd.1 hm, if_neg hij]
    · have e : j = id := List.mem_singleton.mp hm
      subst e
      have hnp : j ∉ p.ids := fun hc => hnd.2.2 hc (List.mem_singleton.mpr rfl)
      rw [countId_of_not_mem p j hnp, if_pos rfl]

theorem countId_pos (c : Chain) (j : Nat) (h : j ∈ c.ids) :
    1 ≤ c.countId j := by
  induction c with
  | nil => exact absurd h (List.not_mem_nil j)
  | snoc p id ih =>
    simp only [Chain.ids] at h
    unfold Chain.countId
    rcases List.mem_append.mp h with hm | hm
    · have := ih hm
      omega
    · rw [if_pos (List.mem_singleton.mp hm).symm]
      omega

/-! ### Claim theorems -/

/-- C1: for every reachable allocator state — obtained from a fresh
allocator by any sequence of allocate_mutable / allocate_immutable / fork /
free (and copy-on-write append) operations — every slot id not in
`free_block_ids` has refcount ≥ 1 (I1); every valid slot id is in exactly
one of {free, allocated}: membership in the duplicate-free free pool is
equivalent to refcount 0 (I2); a slot being freed is never treated as
refcount 0 while its refcount is above it — `free` on a refcount-0 slot
fails loudly and no free ever drives a refcount below zero, each successful
free decrementing the refcount by exactly 1 and returning the slot to the
free pool exactly when the refcount reaches 0. -/
theorem reachable_refcount_invariants (n bs : Nat) (ops : List AllocOp) :
    let s := (initAlloc n bs).run ops
    (∀ id, id < s.numBlocks → id ∉ s.freeBlockIds → 1 ≤ s.refcount id) ∧
    (∀ id, id < s.numBlocks → (id ∈ s.freeBlockIds ↔ s.refcount id = 0)) ∧
    s.freeBlockIds.Nodup ∧
    (∀ id, s.refcount id = 0 →
      s.freeBlock id = .error .invariantViolation) ∧
    (∀ id s', s.freeBlock id = .ok s' →
      1 ≤ s.refcount id ∧ s'.refcount id = s.refcount id - 1 ∧
      (id ∈ s'.freeBlockIds ↔ s'.refcount id = 0)) := by
  intro s
  have hInv : Inv s := inv_run ops (initAlloc n bs) (inv_init n bs)
  obtain ⟨h1, h2, h3, h4, h5, h6⟩ := hInv
  refine ⟨h1, ?_, h3, ?_, ?_⟩
  · intro id hid
    constructor
    · exact h2 id
    · intro h0
      by_contra hmem
      have := h1 id hid hmem
      omega
  · intro id h0
    exact freeBlock_of_zero s id h0
  · intro id s' hok
    cases hr : s.refcount id with
    | zero =>
      rw [freeBlock_of_zero s id hr] at hok
      exact Except.noConfusion hok
    | succ m =>
      cases m with
      | zero =>
        rw [freeBlock_of_one s id (by omega)] at hok
        obtain rfl := Except.ok.inj hok
        refine ⟨by omega, ?_, ?_⟩
        · dsimp only
          rw [upd_self]
        · dsimp only
          rw [upd_self]
          constructor
          · intro _
            rfl
          · intro _
            exact List.mem_append_right _ (List.mem_singleton.mpr rfl)
      | succ m' =>
        rw [freeBlock_of_many s id m' hr] at hok
        obtain rfl := Except.ok.inj hok
        refine ⟨by omega, ?_, ?_⟩
        · dsimp only
          rw [upd_self]
          omega
        · dsimp only
          rw [upd_self]
          constructor
          · intro hmem
            have := h2 id hmem
            omega
          · intro h0
            exact absurd h0 (by omega)

/-- Witness for C1 at a concrete run: allocate one block then free it in a
2-slot allocator; the reachable-state invariants hold there. -/
theorem reachable_refcount_invariants_witness :
    ((initAlloc 2 4).run [AllocOp.allocMut, AllocOp.freeOp 0]).freeBlockIds.Nodup :=
  (reachable_refcount_invariants 2 4 [AllocOp.allocMut, AllocOp.freeOp 0]).2.2.1

/-- C5: `fork(last_block)` walks the `prev_block` links back to the chain's
root, increments the refcount of every block along the way by exactly 1
(and of no other slot), returns the full chain ordered from root outward as
the new logical owner's view, and copies no block content (content and free
pool are untouched). -/
theorem fork_walks_chain_and_increments (s : AllocState) (lastBlock : Chain)
    (hnd : lastBlock.ids.Nodup) :
    (s.fork lastBlock).1 = lastBlock.ids ∧
    (∀ id ∈ lastBlock.ids,
      (s.fork lastBlock).2.refcount id = s.refcount id + 1) ∧
    (∀ id, id ∉ lastBlock.ids →
      (s.fork lastBlock).2.refcount id = s.refcount id) ∧
    (s.fork lastBlock).2.content = s.content ∧
    (s.fork lastBlock).2.freeBlockIds = s.freeBlockIds := by
  refine ⟨rfl, ?_, ?_, (forkWalk_fields lastBlock s).2.2.1,
    (forkWalk_fields lastBlock s).2.2.2.2.1⟩
  · intro id hid
    show (s.forkWalk lastBlock).refcount id = _
    rw [forkWalk_refcount, countId_of_mem_nodup lastBlock id hnd hid]
  · intro id hid
    show (s.forkWalk lastBlock).refcount id = _
    rw [forkWalk_refcount, countId_of_not_mem lastBlock id hid]
    omega

/-- Witness for C5: forking a concrete 2-block chain in a 3-slot
allocator. -/
theorem fork_walks_chain_and_increments_witness :
    (Chain.snoc (Chain.snoc Chain.nil 0) 1).ids.Nodup ∧
    (((initAlloc 3 4).fork (Chain.snoc (Chain.snoc Chain.nil 0) 1)).1 =
      (Chain.snoc (Chain.snoc Chain.nil 0) 1).ids ∧
    (∀ id ∈ (Chain.snoc (Chain.snoc Chain.nil 0) 1).ids,
      ((initAlloc 3 4).fork (Chain.snoc (Chain.snoc Chain.nil 0) 1)).2.refcount id =
        (initAlloc 3 4).refcount id + 1) ∧
    (∀ id, id ∉ (Chain.snoc (Chain.snoc Chain.nil 0) 1).ids →
      ((initAlloc 3 4).fork (Chain.snoc (Chain.snoc Chain.nil 0) 1)).2.refcount id =
        (initAlloc 3 4).refcount id) ∧
    ((initAlloc 3 4).fork (Chain.snoc (Chain.snoc Chain.nil 0) 1)).2.content =
      (initAlloc 3 4).content ∧
    ((initAlloc 3 4).fork (Chain.snoc (Chain.snoc Chain.nil 0) 1)).2.freeBlockIds =
      (initAlloc 3 4).freeBlockIds) :=
  ⟨by decide,
    fork_walks_chain_and_increments (initAlloc 3 4)
      (Chain.snoc (Chain.snoc Chain.nil 0) 1) (by decide)⟩


/-- C2: extending a shared block (slot refcount ≥ 2) triggers copy-on-write:
exactly one new (source, destination) entry is produced and reported by the
next `clear_copy_on_writes`, the source slot's refcount decreases by 1, the
destination slot gets refcount 1, and the destination's initial content
equals the source's pre-mutation token content followed by the appended
tokens (no other slot's content changes). -/
theorem cow_on_shared_block (s : AllocState) (src : Nat) (ids : List Nat)
    (hfree0 : ∀ id ∈ s.freeBlockIds, s.refcount id = 0)
    (hshared : 2 ≤ s.refcount src)
    (hfne : s.freeBlockIds ≠ [])
    (hcap : (s.content src).length + ids.length ≤ s.blockSize) :
    ∃ d s', s.cowAppendBlock src ids = .ok (d, s') ∧
      s'.cows = s.cows ++ [(src, d)] ∧
      (s.cows = [] → (s'.clearCopyOnWrites).1 = [(src, [d])]) ∧
      s'.refcount src = s.refcount src - 1 ∧
      s'.refcount d = 1 ∧
      d ≠ src ∧
      s'.content d = s.content src ++ ids ∧
      (∀ j, j ≠ d → s'.content j = s.content j) := by
  cases hf : s.freeBlockIds with
  | nil => exact absurd hf hfne
  | cons d0 rest =>
    have hd0 : s.refcount d0 = 0 :=
      hfree0 d0 (by rw [hf]; exact List.mem_cons_self _ _)
    have hds : d0 ≠ src := by
      intro e
      rw [e] at hd0
      omega
    refine ⟨d0, _, cowAppend_shared s src ids d0 rest hshared hf hcap,
      rfl, ?_, ?_, ?_, hds, ?_, ?_⟩
    · intro hc
      show groupCows (s.cows ++ [(src, d0)]) = [(src, [d0])]
      rw [hc]
      rfl
    · show upd (upd s.refcount src (s.refcount src - 1)) d0 1 src = _
      rw [upd_ne _ _ _ _ (fun e => hds e.symm), upd_self]
    · show upd (upd s.refcount src (s.refcount src - 1)) d0 1 d0 = 1
      exact upd_self _ _ _
    · show upd s.content d0 (s.content src ++ ids) d0 = _
      exact upd_self _ _ _
    · intro j hj
      show upd s.content d0 (s.content src ++ ids) j = _
      exact upd_ne _ _ _ _ hj

/-- Witness for C2: a 3-slot allocator whose slot 0 holds `[7]` with
refcount 2; appending `[8]` through it copy-on-writes onto a fresh slot. -/
theorem cow_on_shared_block_witness :
    ∃ d s', (AllocState.mk 3 4 (upd (fun _ => 0) 0 2) (upd (fun _ => []) 0 [7])
        (fun _ => false) [1, 2] [] []).cowAppendBlock 0 [8] = .ok (d, s') ∧
      s'.cows = [] ++ [(0, d)] ∧
      ([] = ([] : List (Nat × Nat)) → (s'.clearCopyOnWrites).1 = [(0, [d])]) ∧
      s'.refcount 0 = 2 - 1 ∧
      s'.refcount d = 1 ∧
      d ≠ 0 ∧
      s'.content d = [7] ++ [8] ∧
      (∀ j, j ≠ d → s'.content j =
        (AllocState.mk 3 4 (upd (fun _ => 0) 0 2) (upd (fun _ => []) 0 [7])
          (fun _ => false) [1, 2] [] []).content j) :=
  cow_on_shared_block
    (AllocState.mk 3 4 (upd (fun _ => 0) 0 2) (upd (fun _ => []) 0 [7])
      (fun _ => false) [1, 2] [] [])
    0 [8] (by decide) (by decide) (by decide) (by decide)

/-- C3: with prefix caching enabled, two `allocate_immutable` calls with
identical previous-chain content and identical token ids return the same
block id both times, each call increments that slot's refcount by exactly
1, and the second call allocates no second physical slot (the free pool is
untouched by it). -/
theorem cache_hit_equivalence (s : AllocState) (prevHash : List (List Nat))
    (tokenIds : List Nat)
    (hfree0 : ∀ id ∈ s.freeBlockIds, s.refcount id = 0)
    (hnd : s.freeBlockIds.Nodup)
    (hfne : s.freeBlockIds ≠ []) :
    ∃ id s₁ s₂,
      s.allocateImmutable prevHash tokenIds = .ok (id, s₁) ∧
      s₁.allocateImmutable prevHash tokenIds = .ok (id, s₂) ∧
      s₁.refcount id = s.refcount id + 1 ∧
      s₂.refcount id = s₁.refcount id + 1 ∧
      s₂.freeBlockIds = s₁.freeBlockIds := by
  cases hc : cacheLookup (prevHash ++ [tokenIds]) s.cache with
  | some b =>
    refine ⟨b, _, _, allocImm_of_hit s prevHash tokenIds b hc,
      allocImm_of_hit _ prevHash tokenIds b hc, ?_, ?_, ?_⟩
    · dsimp only
      exact upd_self _ _ _
    · dsimp only
      exact upd_self _ _ _
    · dsimp only
      refine List.filter_eq_self.mpr ?_
      intro j hj
      exact (List.mem_filter.mp hj).2
  | none =>
    cases hf : s.freeBlockIds with
    | nil => exact absurd hf hfne
    | cons a rest =>
      have ha0 : s.refcount a = 0 :=
        hfree0 a (by rw [hf]; exact List.mem_cons_self _ _)
      have hnr : a ∉ rest := by
        have hnd' := hf ▸ hnd
        exact (List.nodup_cons.mp hnd').1
      have hc2 : cacheLookup (prevHash ++ [tokenIds])
          ((prevHash ++ [tokenIds], a) ::
            s.cache.filter (fun e => e.2 ≠ a)) = some a := by
        unfold cacheLookup
        rw [if_pos rfl]
      refine ⟨a, _, _, allocImm_of_miss_cons s prevHash tokenIds a rest hc hf,
        allocImm_of_hit _ prevHash tokenIds a hc2, ?_, ?_, ?_⟩
      · dsimp only
        rw [upd_self, ha0]
      · dsimp only
        exact upd_self _ _ _
      · dsimp only
        refine List.filter_eq_self.mpr ?_
        intro j hj
        exact decide_eq_true (fun e => hnr (e ▸ hj))

/-- Witness for C3: two identical immutable allocations in a fresh 2-slot
allocator. -/
theorem cache_hit_equivalence_witness :
    ∃ id s₁ s₂,
      (initAlloc 2 4).allocateImmutable [] [1, 2, 3, 4] = .ok (id, s₁) ∧
      s₁.allocateImmutable [] [1, 2, 3, 4] = .ok (id, s₂) ∧
      s₁.refcount id = (initAlloc 2 4).refcount id + 1 ∧
      s₂.refcount id = s₁.refcount id + 1 ∧
      s₂.freeBlockIds = s₁.freeBlockIds :=
  cache_hit_equivalence (initAlloc 2 4) [] [1, 2, 3, 4]
    (by decide) (by decide) (by decide)

/-- C4: fork isolation — after `fork(chain)`, appending tokens through the
forked owner's handle is resolved by copy-on-write onto a fresh slot
outside the chain in the same step, so the block ids and the token content
observed through every block of the original owner's chain are
unchanged. -/
theorem fork_isolation (s : AllocState) (p : Chain) (src : Nat)
    (ids : List Nat)
    (hfree0 : ∀ id ∈ s.freeBlockIds, s.refcount id = 0)
    (hlive : ∀ id ∈ (Chain.snoc p src).ids, 1 ≤ s.refcount id)
    (hfne : s.freeBlockIds ≠ [])
    (hcap : (s.content src).length + ids.length ≤ s.blockSize) :
    ∃ d s₂,
      ((s.fork (Chain.snoc p src)).2).appendToChain (Chain.snoc p src) ids =
        .ok (Chain.snoc p d, s₂) ∧
      d ∉ (Chain.snoc p src).ids ∧
      (∀ id ∈ (Chain.snoc p src).ids, s₂.content id = s.content id) := by
  obtain ⟨hnB, hbS, hcont, hcomp, hfree, hcache, hcows⟩ :=
    forkWalk_fields (Chain.snoc p src) s
  cases hf : s.freeBlockIds with
  | nil => exact absurd hf hfne
  | cons d0 rest =>
    have hsrcmem : src ∈ (Chain.snoc p src).ids := by
      simp [Chain.ids]
    have h2 : 2 ≤ (s.forkWalk (Chain.snoc p src)).refcount src := by
      rw [forkWalk_refcount]
      have hp := countId_pos (Chain.snoc p src) src hsrcmem
      have hl := hlive src hsrcmem
      omega
    have hd0 : s.refcount d0 = 0 :=
      hfree0 d0 (by rw [hf]; exact List.mem_cons_self _ _)
    have hd0nm : d0 ∉ (Chain.snoc p src).ids := by
      intro hcm
      have := hlive d0 hcm
      omega
    have hf' : (s.forkWalk (Chain.snoc p src)).freeBlockIds = d0 :: rest := by
      rw [hfree]
      exact hf
    have hcap' :
        ((s.forkWalk (Chain.snoc p src)).content src).length + ids.length ≤
          (s.forkWalk (Chain.snoc p src)).blockSize := by
      rw [hcont, hbS]
      exact hcap
    have hcow := cowAppend_shared (s.forkWalk (Chain.snoc p src)) src ids d0
      rest h2 hf' hcap'
    refine ⟨d0, { s.forkWalk (Chain.snoc p src) with
        freeBlockIds := rest
        refcount := upd (upd (s.forkWalk (Chain.snoc p src)).refcount src
          ((s.forkWalk (Chain.snoc p src)).refcount src - 1)) d0 1
        content := upd (s.forkWalk (Chain.snoc p src)).content d0
          ((s.forkWalk (Chain.snoc p src)).content src ++ ids)
        computed := upd (s.forkWalk (Chain.snoc p src)).computed d0 false
        cache := (s.forkWalk (Chain.snoc p src)).cache.filter
          (fun e => e.2 ≠ d0)
        cows := (s.forkWalk (Chain.snoc p src)).cows ++ [(src, d0)] },
      ?_, hd0nm, ?_⟩
    · show (s.forkWalk (Chain.snoc p src)).appendToChain (Chain.snoc p src) ids = _
      simp only [AllocState.appendToChain]
      rw [hcow]
    · intro id hid
      have hidd : id ≠ d0 := fun e => hd0nm (e ▸ hid)
      dsimp only
      rw [upd_ne _ _ _ _ hidd, hcont]

/-- Witness for C4: fork a concrete 2-block chain (slots 0 and 1) and append
`[6]` through the forked view; the original chain's content is intact. -/
theorem fork_isolation_witness :
    ∃ d s₂,
      (((AllocState.mk 4 4 (upd (upd (fun _ => 0) 0 1) 1 1)
          (upd (upd (fun _ => []) 0 [1, 2, 3, 4]) 1 [5]) (fun _ => false)
          [2, 3] [] []).fork
            (Chain.snoc (Chain.snoc Chain.nil 0) 1)).2).appendToChain
        (Chain.snoc (Chain.snoc Chain.nil 0) 1) [6] =
          .ok (Chain.snoc (Chain.snoc Chain.nil 0) d, s₂) ∧
      d ∉ (Chain.snoc (Chain.snoc Chain.nil 0) 1).ids ∧
      (∀ id ∈ (Chain.snoc (Chain.snoc Chain.nil 0) 1).ids,
        s₂.content id =
          (AllocState.mk 4 4 (upd (upd (fun _ => 0) 0 1) 1 1)
            (upd (upd (fun _ => []) 0 [1, 2, 3, 4]) 1 [5]) (fun _ => false)
            [2, 3] [] []).content id) :=
  fork_isolation
    (AllocState.mk 4 4 (upd (upd (fun _ => 0) 0 1) 1 1)
      (upd (upd (fun _ => []) 0 [1, 2, 3, 4]) 1 [5]) (fun _ => false)
      [2, 3] [] [])
    (Chain.snoc Chain.nil 0) 1 [6]
    (by decide) (by decide) (by decide) (by decide)


/-- Repeatedly allocate `k` mutable blocks, failing fast on the first
error. -/
def allocK : Nat → AllocState → Except AllocError AllocState
  | 0, s => .ok s
  | k + 1, s =>
    match s.allocateMutable with
    | .ok (_, s') => allocK k s'
    | .error e => .error e

theorem allocK_exhausts : ∀ (l : List Nat) (s : AllocState),
    s.freeBlockIds = l → (∀ id ∈ l, s.refcount id = 0) → l.Nodup →
    ∃ s', allocK l.length s = .ok s' ∧ s'.freeBlockIds = [] ∧
      s'.numBlocks = s.numBlocks ∧
      (∀ j, s'.refcount j = if j ∈ l then 1 else s.refcount j) := by
  intro l
  induction l with
  | nil =>
    intro s hfl _ _
    exact ⟨s, rfl, hfl, rfl, fun j => by rw [if_neg (List.not_mem_nil j)]⟩
  | cons a rest ih =>
    intro s hfl h0 hnd
    have hstep := allocMut_of_cons s a rest hfl
    have hz : ∀ id ∈ rest, (upd s.refcount a 1) id = 0 := by
      intro id hid
      have hia : id ≠ a := fun e => (List.nodup_cons.mp hnd).1 (e ▸ hid)
      rw [upd_ne _ _ _ _ hia]
      exact h0 id (List.mem_cons_of_mem _ hid)
    obtain ⟨s', hk, hfree', hnum, hrc⟩ := ih
      { s with
        freeBlockIds := rest
        refcount := upd s.refcount a 1
        content := upd s.content a []
        computed := upd s.computed a false
        cache := s.cache.filter (fun e => e.2 ≠ a) }
      rfl hz (List.nodup_cons.mp hnd).2
    refine ⟨s', ?_, hfree', hnum, ?_⟩
    · show allocK (rest.length + 1) s = .ok s'
      simp only [allocK]
      rw [hstep]
      exact hk
    · intro j
      rw [hrc j]
      dsimp only
      by_cases hjr : j ∈ rest
      · rw [if_pos hjr, if_pos (List.mem_cons_of_mem _ hjr)]
      · rw [if_neg hjr]
        by_cases hja : j = a
        · subst hja
          rw [upd_self, if_pos (List.mem_cons_self _ _)]
        · rw [upd_ne _ _ _ _ hja,
            if_neg (fun hm => (List.mem_cons.mp hm).elim hja hjr)]

/-- C6: with `num_blocks = N`, after allocating `N` mutable blocks with no
intervening frees the `(N+1)`th allocation fails with `NoFreeBlocksError`
and leaves the allocator state unchanged; after freeing one allocated
block, the next allocation succeeds and reuses exactly that slot id from
the eviction-eligible pool. -/
theorem exhaustion_and_reuse (N bs : Nat) :
    ∃ s', allocK N (initAlloc N bs) = .ok s' ∧
      s'.allocateMutable = .error .noFreeBlocks ∧
      s'.step .allocMut = s' ∧
      (∀ id, 1 ≤ s'.refcount id →
        ∃ s'', s'.freeBlock id = .ok s'' ∧
          s''.freeBlockIds = [id] ∧
          ∃ t, s''.allocateMutable = .ok (id, t)) := by
  obtain ⟨s', hk, hfree', hnum, hrc⟩ := allocK_exhausts (List.range N)
    (initAlloc N bs) rfl (fun id _ => rfl) (List.nodup_range N)
  rw [List.length_range] at hk
  refine ⟨s', hk, allocMut_of_nil s' hfree', ?_, ?_⟩
  · simp only [AllocState.step, allocMut_of_nil s' hfree']
  · intro id hid
    have h1 : s'.refcount id = 1 := by
      have h := hrc id
      by_cases hm : id ∈ List.range N
      · rw [if_pos hm] at h
        exact h
      · rw [if_neg hm] at h
        have h0 : s'.refcount id = 0 := h
        omega
    refine ⟨_, freeBlock_of_one s' id h1, ?_, ?_⟩
    · show s'.freeBlockIds ++ [id] = [id]
      rw [hfree']
      rfl
    · refine ⟨_, allocMut_of_cons _ id [] ?_⟩
      show s'.freeBlockIds ++ [id] = id :: []
      rw [hfree']
      rfl

/-- Witness for C6: a 2-slot allocator. -/
theorem exhaustion_and_reuse_witness :
    ∃ s', allocK 2 (initAlloc 2 4) = .ok s' ∧
      s'.allocateMutable = .error .noFreeBlocks ∧
      s'.step .allocMut = s' ∧
      (∀ id, 1 ≤ s'.refcount id →
        ∃ s'', s'.freeBlock id = .ok s'' ∧
          s''.freeBlockIds = [id] ∧
          ∃ t, s''.allocateMutable = .ok (id, t)) :=
  exhaustion_and_reuse 2 4


/-! ### Lemmas about initial segments and the common computed run -/

theorem isInit_refl : ∀ l : List Nat, isInit l l = true := by
  intro l
  induction l with
  | nil => rfl
  | cons x xs ih =>
    simp only [isInit, Bool.and_eq_true, decide_eq_true_eq]
    exact ⟨trivial, ih⟩

theorem isInit_trans : ∀ a b c : List Nat,
    isInit a b = true → isInit b c = true → isInit a c = true := by
  intro a
  induction a with
  | nil =>
    intro b c _ _
    rfl
  | cons x xs ih =>
    intro b c hab hbc
    cases b with
    | nil => exact absurd hab (by simp [isInit])
    | cons y ys =>
      cases c with
      | nil => exact absurd hbc (by simp [isInit])
      | cons z zs =>
        simp only [isInit, Bool.and_eq_true, decide_eq_true_eq] at hab hbc ⊢
        exact ⟨hab.1.trans hbc.1, ih ys zs hab.2 hbc.2⟩

theorem isInit_head (y x : Nat) (r t : List Nat)
    (h : isInit (y :: r) (x :: t) = true) : y = x := by
  simp only [isInit, Bool.and_eq_true, decide_eq_true_eq] at h
  exact h.1

theorem commonStem_isInit_left : ∀ a b : List Nat,
    isInit (commonStem a b) a = true := by
  intro a
  induction a with
  | nil =>
    intro b
    rfl
  | cons x xs ih =>
    intro b
    cases b with
    | nil => rfl
    | cons y ys =>
      simp only [commonStem]
      by_cases hxy : x = y
      · rw [if_pos hxy]
        simp only [isInit, Bool.and_eq_true, decide_eq_true_eq]
        exact ⟨trivial, ih ys⟩
      · rw [if_neg hxy]
        rfl

theorem commonStem_isInit_right : ∀ a b : List Nat,
    isInit (commonStem a b) b = true := by
  intro a
  induction a with
  | nil =>
    intro b
    rfl
  | cons x xs ih =>
    intro b
    cases b with
    | nil => rfl
    | cons y ys =>
      simp only [commonStem]
      by_cases hxy : x = y
      · rw [if_pos hxy]
        simp only [isInit, Bool.and_eq_true, decide_eq_true_eq]
        exact ⟨hxy, ih ys⟩
      · rw [if_neg hxy]
        rfl

theorem commonStem_longest : ∀ (L a b : List Nat),
    isInit L a = true → isInit L b = true →
    isInit L (commonStem a b) = true := by
  intro L
  induction L with
  | nil =>
    intro a b _ _
    rfl
  | cons t ts ih =>
    intro a b hLa hLb
    cases a with
    | nil => exact absurd hLa (by simp [isInit])
    | cons x xs =>
      cases b with
      | nil => exact absurd hLb (by simp [isInit])
      | cons y ys =>
        simp only [isInit, Bool.and_eq_true, decide_eq_true_eq] at hLa hLb
        simp only [commonStem]
        rw [if_pos (hLa.1.symm.trans hLb.1)]
        simp only [isInit, Bool.and_eq_true, decide_eq_true_eq]
        exact ⟨hLa.1, ih xs ys hLa.2 hLb.2⟩

theorem foldl_commonStem_isInit : ∀ (ls : List (List Nat)) (l : List Nat),
    isInit (ls.foldl commonStem l) l = true := by
  intro ls
  induction ls with
  | nil =>
    intro l
    exact isInit_refl l
  | cons m ms ih =>
    intro l
    show isInit (ms.foldl commonStem (commonStem l m)) l = true
    exact isInit_trans _ _ _ (ih (commonStem l m)) (commonStem_isInit_left l m)

theorem foldl_commonStem_isInit_mem : ∀ (ls : List (List Nat)) (l m : List Nat),
    m ∈ ls → isInit (ls.foldl commonStem l) m = true := by
  intro ls
  induction ls with
  | nil =>
    intro l m hm
    exact absurd hm (List.not_mem_nil m)
  | cons m0 ms ih =>
    intro l m hm
    rcases List.mem_cons.mp hm with he | hm'
    · subst he
      show isInit (ms.foldl commonStem (commonStem l m)) m = true
      exact isInit_trans _ _ _ (foldl_commonStem_isInit ms (commonStem l m))
        (commonStem_isInit_right l m)
    · exact ih (commonStem l m0) m hm'

theorem foldl_commonStem_longest : ∀ (ls : List (List Nat)) (l L : List Nat),
    isInit L l = true → (∀ m ∈ ls, isInit L m = true) →
    isInit L (ls.foldl commonStem l) = true := by
  intro ls
  induction ls with
  | nil =>
    intro l L h _
    exact h
  | cons m ms ih =>
    intro l L hL hms
    show isInit L (ms.foldl commonStem (commonStem l m)) = true
    exact ih (commonStem l m) L
      (commonStem_longest L l m hL (hms m (List.mem_cons_self _ _)))
      (fun m' hm' => hms m' (List.mem_cons_of_mem _ hm'))

theorem takeComputed_isInit (s : AllocState) : ∀ l : List Nat,
    isInit (takeComputed s l) l = true := by
  intro l
  induction l with
  | nil => rfl
  | cons x xs ih =>
    simp only [takeComputed]
    by_cases hx : s.computed x = true
    · rw [if_pos hx]
      simp only [isInit, Bool.and_eq_true, decide_eq_true_eq]
      exact ⟨trivial, ih⟩
    · rw [if_neg hx]
      rfl

theorem takeComputed_computed (s : AllocState) : ∀ l : List Nat,
    ∀ x ∈ takeComputed s l, s.computed x = true := by
  intro l
  induction l with
  | nil =>
    intro x hx
    exact absurd hx (List.not_mem_nil x)
  | cons y ys ih =>
    intro x hx
    simp only [takeComputed] at hx
    by_cases hy : s.computed y = true
    · rw [if_pos hy] at hx
      rcases List.mem_cons.mp hx with he | hm
      · rw [he]
        exact hy
      · exact ih x hm
    · rw [if_neg hy] at hx
      exact absurd hx (List.not_mem_nil x)

theorem takeComputed_longest (s : AllocState) : ∀ (l L : List Nat),
    isInit L l = true → (∀ x ∈ L, s.computed x = true) →
    isInit L (takeComputed s l) = true := by
  intro l
  induction l with
  | nil =>
    intro L hL _
    cases L with
    | nil => rfl
    | cons t ts => exact absurd hL (by simp [isInit])
  | cons y ys ih =>
    intro L hL hc
    cases L with
    | nil => rfl
    | cons t ts =>
      simp only [isInit, Bool.and_eq_true, decide_eq_true_eq] at hL
      obtain ⟨het, hts⟩ := hL
      subst het
      simp only [takeComputed]
      rw [if_pos (hc t (List.mem_cons_self _ _))]
      simp only [isInit, Bool.and_eq_true, decide_eq_true_eq]
      exact ⟨trivial, ih ts hts (fun x hx => hc x (List.mem_cons_of_mem _ hx))⟩

theorem takeComputed_nil_of_head (s : AllocState) (x : Nat) (t : List Nat)
    (hx : s.computed x = false) : takeComputed s (x :: t) = [] := by
  simp only [takeComputed]
  rw [if_neg (by rw [hx]; exact Bool.false_ne_true)]

/-- C7: `get_common_computed_block_ids` returns the longest common leading
run of block ids that are identical in every sequence's list and whose
computed flag is true, ordered from chain root outward, stopping at the
first divergence or the first not-yet-computed block; in particular it
returns the empty list when the first block is not computed. -/
theorem common_computed_block_ids (s : AllocState) (l : List Nat)
    (ls : List (List Nat)) :
    (isInit (s.getCommonComputedBlockIds (l :: ls)) l = true ∧
      ∀ m ∈ ls, isInit (s.getCommonComputedBlockIds (l :: ls)) m = true) ∧
    (∀ x ∈ s.getCommonComputedBlockIds (l :: ls), s.computed x = true) ∧
    (∀ L, isInit L l = true → (∀ m ∈ ls, isInit L m = true) →
      (∀ x ∈ L, s.computed x = true) →
      isInit L (s.getCommonComputedBlockIds (l :: ls)) = true) ∧
    (∀ x t, l = x :: t → s.computed x = false →
      s.getCommonComputedBlockIds (l :: ls) = []) := by
  have hres : s.getCommonComputedBlockIds (l :: ls) =
      takeComputed s (ls.foldl commonStem l) := rfl
  refine ⟨⟨?_, ?_⟩, ?_, ?_, ?_⟩
  · rw [hres]
    exact isInit_trans _ _ _ (takeComputed_isInit s _)
      (foldl_commonStem_isInit ls l)
  · intro m hm
    rw [hres]
    exact isInit_trans _ _ _ (takeComputed_isInit s _)
      (foldl_commonStem_isInit_mem ls l m hm)
  · intro x hx
    rw [hres] at hx
    exact takeComputed_computed s _ x hx
  · intro L hLl hLm hLc
    rw [hres]
    exact takeComputed_longest s _ L
      (foldl_commonStem_longest ls l L hLl hLm) hLc
  · intro x t he hx
    rw [hres]
    cases hfold : ls.foldl commonStem l with
    | nil => rfl
    | cons y r =>
      have hyx : y = x := by
        have hinit := foldl_commonStem_isInit ls l
        rw [hfold, he] at hinit
        exact isInit_head y x r t hinit
      rw [hyx]
      exact takeComputed_nil_of_head s x r hx


/-- Witness for C7 at the specification's example: sequences `[1,2,3]` and
`[1,2,4]`, blocks 1 and 2 computed, block 3 computed only in the first
list; the result is `[1,2]`, and it is `[]` when the first block is not
computed. -/
theorem common_computed_block_ids_witness :
    (isInit ((AllocState.mk 5 4 (fun _ => 1) (fun _ => []) (fun i =>
        decide (1 ≤ i ∧ i ≤ 3)) [] [] []).getCommonComputedBlockIds
        ([1, 2, 3] :: [[1, 2, 4]])) [1, 2, 3] = true ∧
      ∀ m ∈ [[1, 2, 4]], isInit ((AllocState.mk 5 4 (fun _ => 1)
        (fun _ => []) (fun i =>
          decide (1 ≤ i ∧ i ≤ 3)) [] [] []).getCommonComputedBlockIds
        ([1, 2, 3] :: [[1, 2, 4]])) m = true) ∧
      (∀ x ∈ (AllocState.mk 5 4 (fun _ => 1) (fun _ => []) (fun i =>
        decide (1 ≤ i ∧ i ≤ 3)) [] [] []).getCommonComputedBlockIds
        ([1, 2, 3] :: [[1, 2, 4]]),
        (AllocState.mk 5 4 (fun _ => 1) (fun _ => []) (fun i =>
          decide (1 ≤ i ∧ i ≤ 3)) [] [] []).computed x = true) ∧
      (∀ L, isInit L [1, 2, 3] = true →
        (∀ m ∈ [[1, 2, 4]], isInit L m = true) →
        (∀ x ∈ L, (AllocState.mk 5 4 (fun _ => 1) (fun _ => []) (fun i =>
          decide (1 ≤ i ∧ i ≤ 3)) [] [] []).computed x = true) →
        isInit L ((AllocState.mk 5 4 (fun _ => 1) (fun _ => []) (fun i =>
          decide (1 ≤ i ∧ i ≤ 3)) [] [] []).getCommonComputedBlockIds
          ([1, 2, 3] :: [[1, 2, 4]])) = true) ∧
      (∀ x t, [1, 2, 3] = x :: t →
        (AllocState.mk 5 4 (fun _ => 1) (fun _ => []) (fun i =>
          decide (1 ≤ i ∧ i ≤ 3)) [] [] []).computed x = false →
        (AllocState.mk 5 4 (fun _ => 1) (fun _ => []) (fun i =>
          decide (1 ≤ i ∧ i ≤ 3)) [] [] []).getCommonComputedBlockIds
          ([1, 2, 3] :: [[1, 2, 4]]) = []) ∧
    ((AllocState.mk 5 4 (fun _ => 1) (fun _ => []) (fun i =>
      decide (1 ≤ i ∧ i ≤ 3)) [] [] []).getCommonComputedBlockIds
      [[1, 2, 3], [1, 2, 4]] = [1, 2] ∧
    (AllocState.mk 5 4 (fun _ => 1) (fun _ => []) (fun _ =>
      false) [] [] []).getCommonComputedBlockIds [[1, 2, 3], [1, 2, 4]] = []) :=
  have h := common_computed_block_ids
    (AllocState.mk 5 4 (fun _ => 1) (fun _ => [])
      (fun i => decide (1 ≤ i ∧ i ≤ 3)) [] [] []) [1, 2, 3] [[1, 2, 4]]
  ⟨h.1, h.2.1, h.2.2.1, h.2.2.2, by decide, by decide⟩

/-- C8: on a block with `num_empty_slots = k`, appending exactly `k` ids
succeeds and makes `is_full` true; appending `k + 1` ids fails with
`CapacityExceeded` and leaves the block's `token_ids` entirely unchanged
(no partial append). -/
theorem append_capacity_boundary (b : BlockData) (ids extra : List Nat)
    (hlen : b.tokenIds.length ≤ b.blockSize)
    (hk : ids.length = b.numEmptySlots)
    (hk1 : extra.length = b.numEmptySlots + 1) :
    b.appendTokenIds ids = .ok (BlockData.mk b.blockSize (b.tokenIds ++ ids)) ∧
    (BlockData.mk b.blockSize (b.tokenIds ++ ids)).isFull = true ∧
    b.appendTokenIds extra = .error .capacityExceeded ∧
    (b.appendStep extra).tokenIds = b.tokenIds := by
  have hbs : b.tokenIds.length + ids.length = b.blockSize := by
    unfold BlockData.numEmptySlots at hk
    omega
  have hbs1 : b.blockSize < b.tokenIds.length + extra.length := by
    unfold BlockData.numEmptySlots at hk1
    omega
  have herr : b.appendTokenIds extra = .error .capacityExceeded := by
    unfold BlockData.appendTokenIds
    rw [if_pos (by omega)]
  refine ⟨?_, ?_, herr, ?_⟩
  · unfold BlockData.appendTokenIds
    rw [if_neg (by omega)]
  · simp only [BlockData.isFull, BlockData.numEmptySlots, List.length_append,
      decide_eq_true_eq]
    omega
  · unfold BlockData.appendStep
    rw [herr]

/-- Witness for C8: a block of capacity 4 holding `[5,6]`
(`num_empty_slots = 2`), appending 2 ids vs. 3 ids. -/
theorem append_capacity_boundary_witness :
    (BlockData.mk 4 [5, 6]).appendTokenIds [7, 8] =
        .ok (BlockData.mk 4 ([5, 6] ++ [7, 8])) ∧
    (BlockData.mk 4 ([5, 6] ++ [7, 8])).isFull = true ∧
    (BlockData.mk 4 [5, 6]).appendTokenIds [7, 8, 9] =
        .error .capacityExceeded ∧
    ((BlockData.mk 4 [5, 6]).appendStep [7, 8, 9]).tokenIds = [5, 6] :=
  append_capacity_boundary (BlockData.mk 4 [5, 6]) [7, 8] [7, 8, 9]
    (by decide) (by decide) (by decide)

/-- C9: `NoFreeBlocksError` is a distinguished failure kind: an allocation
fails with it exactly when the pool is exhausted, it is the only error an
allocation can raise, and it is distinguishable by its kind alone from the
caller-contract and internal-error kinds. -/
theorem noFreeBlocks_distinguished :
    (∀ s : AllocState, s.allocateMutable = .error AllocError.noFreeBlocks ↔
      s.freeBlockIds = []) ∧
    (∀ (s : AllocState) (e : AllocError), s.allocateMutable = .error e →
      e = AllocError.noFreeBlocks) ∧
    AllocError.noFreeBlocks ≠ AllocError.capacityExceeded ∧
    AllocError.noFreeBlocks ≠ AllocError.invariantViolation := by
  have hcase : ∀ (s : AllocState) (e : AllocError),
      s.allocateMutable = .error e →
      e = AllocError.noFreeBlocks ∧ s.freeBlockIds = [] := by
    intro s e h
    cases hf : s.freeBlockIds with
    | nil =>
      rw [allocMut_of_nil s hf] at h
      exact ⟨(Except.error.inj h).symm, rfl⟩
    | cons a rest =>
      rw [allocMut_of_cons s a rest hf] at h
      exact Except.noConfusion h
  refine ⟨?_, fun s e h => (hcase s e h).1, by decide, by decide⟩
  intro s
  constructor
  · intro h
    exact (hcase s _ h).2
  · intro h
    exact allocMut_of_nil s h

/-- Witness for C9: a 0-slot allocator is exhausted and fails with the
distinguished kind. -/
theorem noFreeBlocks_distinguished_witness :
    (initAlloc 0 4).allocateMutable = .error AllocError.noFreeBlocks ∧
    AllocError.noFreeBlocks ≠ AllocError.capacityExceeded :=
  ⟨(noFreeBlocks_distinguished.1 (initAlloc 0 4)).mpr (by decide),
    noFreeBlocks_distinguished.2.2.1⟩

/-- C10: every allocation and query operation of the device-aware allocator
takes an explicit `Device` argument that selects the per-tier allocator:
the call behaves exactly as the selected tier's operation (same returned
id, same error), updates only that tier, and leaves every other tier
untouched. -/
theorem device_dispatch (s : DeviceAwareState) (d : Device)
    (prevHash : List (List Nat)) (tokenIds : List Nat) :
    (∀ e, (s.tiers d).allocateMutable = .error e →
      s.allocateMutable d = .error e) ∧
    (∀ id t', (s.tiers d).allocateMutable = .ok (id, t') →
      ∃ s', s.allocateMutable d = .ok (id, s') ∧ s'.tiers d = t' ∧
        ∀ d', d' ≠ d → s'.tiers d' = s.tiers d') ∧
    (∀ e, (s.tiers d).allocateImmutable prevHash tokenIds = .error e →
      s.allocateImmutable prevHash tokenIds d = .error e) ∧
    (∀ id t', (s.tiers d).allocateImmutable prevHash tokenIds = .ok (id, t') →
      ∃ s', s.allocateImmutable prevHash tokenIds d = .ok (id, s') ∧
        s'.tiers d = t' ∧ ∀ d', d' ≠ d → s'.tiers d' = s.tiers d') ∧
    s.getNumFreeBlocks d = (s.tiers d).getNumFreeBlocks := by
  refine ⟨?_, ?_, ?_, ?_, rfl⟩
  · intro e h
    unfold DeviceAwareState.allocateMutable
    rw [h]
  · intro id t' h
    refine ⟨⟨fun d' => if d' = d then t' else s.tiers d'⟩, ?_, ?_, ?_⟩
    · unfold DeviceAwareState.allocateMutable
      rw [h]
    · show (if d = d then t' else s.tiers d) = t'
      rw [if_pos rfl]
    · intro d' hd'
      show (if d' = d then t' else s.tiers d') = s.tiers d'
      rw [if_neg hd']
  · intro e h
    unfold DeviceAwareState.allocateImmutable
    rw [h]
  · intro id t' h
    refine ⟨⟨fun d' => if d' = d then t' else s.tiers d'⟩, ?_, ?_, ?_⟩
    · unfold DeviceAwareState.allocateImmutable
      rw [h]
    · show (if d = d then t' else s.tiers d) = t'
      rw [if_pos rfl]
    · intro d' hd'
      show (if d' = d then t' else s.tiers d') = s.tiers d'
      rw [if_neg hd']

/-- Witness for C10: a two-tier device-aware allocator with 1-slot tiers,
queried on the GPU tier. -/
theorem device_dispatch_witness :
    (∀ e, ((DeviceAwareState.mk (fun _ => initAlloc 1 4)).tiers
        Device.gpu).allocateMutable = .error e →
      (DeviceAwareState.mk (fun _ => initAlloc 1 4)).allocateMutable
        Device.gpu = .error e) ∧
    (∀ id t', ((DeviceAwareState.mk (fun _ => initAlloc 1 4)).tiers
        Device.gpu).allocateMutable = .ok (id, t') →
      ∃ s', (DeviceAwareState.mk (fun _ => initAlloc 1 4)).allocateMutable
          Device.gpu = .ok (id, s') ∧ s'.tiers Device.gpu = t' ∧
        ∀ d', d' ≠ Device.gpu →
          s'.tiers d' = (DeviceAwareState.mk (fun _ => initAlloc 1 4)).tiers d') ∧
    (∀ e, ((DeviceAwareState.mk (fun _ => initAlloc 1 4)).tiers
        Device.gpu).allocateImmutable [] [1] = .error e →
      (DeviceAwareState.mk (fun _ => initAlloc 1 4)).allocateImmutable
        [] [1] Device.gpu = .error e) ∧
    (∀ id t', ((DeviceAwareState.mk (fun _ => initAlloc 1 4)).tiers
        Device.gpu).allocateImmutable [] [1] = .ok (id, t') →
      ∃ s', (DeviceAwareState.mk (fun _ => initAlloc 1 4)).allocateImmutable
          [] [1] Device.gpu = .ok (id, s') ∧ s'.tiers Device.gpu = t' ∧
        ∀ d', d' ≠ Device.gpu →
          s'.tiers d' = (DeviceAwareState.mk (fun _ => initAlloc 1 4)).tiers d') ∧
    (DeviceAwareState.mk (fun _ => initAlloc 1 4)).getNumFreeBlocks
      Device.gpu =
      ((DeviceAwareState.mk (fun _ => initAlloc 1 4)).tiers
        Device.gpu).getNumFreeBlocks :=
  device_dispatch (DeviceAwareState.mk (fun _ => initAlloc 1 4))
    Device.gpu [] [1]

end Aphrodite
